import Mathlib

deriving instance DecidableEq for Except

namespace Betacorn

/-! Shallow embedding of the betacorn dice contract (betacorn.hpp and
betacorn.cpp).

Names are modelled by their 64-bit name.value as a Nat; the empty name
NULL_NAME has value 0.  Assets are modelled by their int64 amount as an Int;
every asset handled by the contract carries the fixed ACORN symbol, so the
symbol component is a constant and the symbol equality checks of the source
are invariants of the model rather than runtime tests.  A checksum256 is
modelled as its list of 32 bytes.  Multi-index tables are modelled as lists of
records; emplace aborts when a record with the same primary key already
exists, erase and modify act on the record returned by the corresponding
find.  Aborting check and assert calls are modelled by Except.error.  Outgoing
pay calls, which are inline transfers performed by the external token
contract, are collected in a list of Payment values.  The sha256 primitive is
an external intrinsic, so reveal is parametrised by the hash function. -/

def ACORN_SYMBOL_CODE : Nat := 65 + 67 * 256 + 79 * 65536 + 82 * 16777216 + 78 * 4294967296

def NULL_NAME : Nat := 0

def NULL_GUESS : Nat := 127

def MAX_BET_TO_BANKROLL : Int := 100

def MIN_TRANSFER_SHELLS : Int := 100

def GAME_TIMEOUT_SECS : Nat := 300

def ZERO_SOURCE : Nat := 0x6c8fc18b8e9f8e20

def ZERO_ACORNS : Int := 0

def ACORN_SHELL : Int := 1

def MIN_BALANCE : Int := 500000

/-- first 64 bits of a 32-byte hash, read little-endian as on wasm
(get_hash_prefix in betacorn.hpp). -/
def hashPrefix64 (hash : List Nat) : Nat :=
  List.foldr (fun b acc => b + 256 * acc) 0 (hash.take 8)

structure account where
  owner : Nat
  balance : Int
deriving DecidableEq

/-- primary key of an accounts row: the raw symbol code of the balance
(balance.symbol.code().raw() in betacorn.hpp).  Every balance held by the
contract has the ACORN symbol, so this key is the same constant for every
row. -/
def account.primary_key (_ : account) : Nat := ACORN_SYMBOL_CODE

structure game where
  commitment : List Nat
  host : Nat
deriving DecidableEq

def game.primary_key (g : game) : Nat := hashPrefix64 g.commitment

structure Match where
  commitment : List Nat
  host : Nat
  guess : Nat
  player : Nat
  bet : Int
  deadline : Nat
deriving DecidableEq

def Match.primary_key (m : Match) : Nat := hashPrefix64 m.commitment

/-- contract state: the three multi-index tables.  The matches table is named
mts, the variable name the source uses for it, because the word matches is
reserved in Lean. -/
structure State where
  accounts : List account
  games : List game
  mts : List Match
deriving DecidableEq

structure Payment where
  payee : Nat
  amount : Int
  memo : String
deriving DecidableEq

/-- removes the first record accepted by the test, as erase on the iterator
returned by a find. -/
def eraseFirst (p : α → Bool) : List α → List α
  | [] => []
  | x :: xs => if p x then xs else x :: eraseFirst p xs

/-- rewrites the first record accepted by the test, as modify on the iterator
returned by a find. -/
def modifyFirst (p : α → Bool) (f : α → α) : List α → List α
  | [] => []
  | x :: xs => if p x then f x :: xs else x :: modifyFirst p f xs

/-- dice::add_balance.  The emplace branch aborts when a row with the same
primary key already exists; since account.primary_key is constant, that is
whenever the table is nonempty. -/
def add_balance (owner : Nat) (value : Int) (enforce_min : Bool)
    (acnts : List account) : Except String (List account) :=
  match acnts.find? (fun a => a.owner == owner) with
  | none =>
    if enforce_min && decide (value < MIN_BALANCE) then
      Except.error ("deposit does not meet minimum balance requirement")
    else if acnts.any (fun a =>
        a.primary_key == account.primary_key ⟨owner, value⟩) then
      Except.error ("could not insert object, most likely a uniqueness constraint was violated")
    else
      Except.ok (acnts ++ [⟨owner, value⟩])
  | some _ =>
    Except.ok (modifyFirst (fun a => a.owner == owner)
      (fun a => { a with balance := a.balance + value }) acnts)

/-- loop body of the cascade in dice::sub_balance: for every game of the
emptied host, erase the match found under the same primary key.  Erasing a
missing match is erase of an end iterator, which aborts. -/
def cascadeMatches : List game → List Match → Except String (List Match)
  | [], mts => Except.ok mts
  | g :: rest, mts =>
    match mts.find? (fun m => m.primary_key == g.primary_key) with
    | none => Except.error ("cannot pass end iterator to erase")
    | some _ =>
      cascadeMatches rest (eraseFirst (fun m => m.primary_key == g.primary_key) mts)

/-- dice::sub_balance.  When the balance reaches exactly zero, the byhost
index find positions at the first game of the owner, or at end when the
owner has none; the erase loop then runs to the end of the whole index with
no host check on the iterator, so it erases every game whose host value is
at least the owner value, together with the match found under the same
primary key.  The matches are erased here in table order; the outcome does
not depend on that order while primary keys are unique, as the table
enforces. -/
def sub_balance (owner : Nat) (value : Int) (enforce_min : Bool)
    (st : State) : Except String State :=
  match st.accounts.find? (fun a => a.owner == owner) with
  | none => Except.error ("no account object found")
  | some acct =>
    if acct.balance < value then Except.error ("overdrawn balance")
    else
      let result := acct.balance - value
      if result = 0 then
        if st.games.any (fun g => g.host == owner) then
          match cascadeMatches (st.games.filter (fun g => owner ≤ g.host)) st.mts with
          | Except.error e => Except.error e
          | Except.ok mts =>
            Except.ok { accounts := eraseFirst (fun a => a.owner == owner) st.accounts,
                        games := st.games.filter (fun g => g.host < owner),
                        mts := mts }
        else
          Except.ok { accounts := eraseFirst (fun a => a.owner == owner) st.accounts,
                      games := st.games,
                      mts := st.mts }
      else if enforce_min && decide (result < MIN_BALANCE) then
        Except.error ("withdrawal must either withdraw the full balance, or the remainder must meet the minimum balance requirement")
      else if enforce_min && decide (value < MIN_TRANSFER_SHELLS) then
        Except.error ("withdrawals below the minimum transfer are only allowed when emptying the account")
      else
        Except.ok { st with accounts := (modifyFirst (fun a => a.owner == owner)
          (fun a => { a with balance := result }) st.accounts) }

/-- dice::withdraw.  Caller authentication (require_auth) is supplied by the
environment; the symbol and validity checks concern the asset encoding, which
the model fixes to ACORN amounts. -/
def withdraw (toAcct : Nat) (quantity : Int) (st : State) :
    Except String (State × List Payment) :=
  if quantity ≤ 0 then Except.error ("must withdraw positive quantity")
  else
    match sub_balance toAcct quantity true st with
    | Except.error e => Except.error e
    | Except.ok st1 => Except.ok (st1, [⟨toAcct, quantity, ""⟩])

/-- dice::commit.  The now argument is get_current_time().  The games emplace
aborts on a duplicate games primary key; the matches emplace is always unique
because of the explicit collision check just before it. -/
def commit (host : Nat) (commitment : List Nat) (now : Nat) (st : State) :
    Except String State :=
  match st.accounts.find? (fun a => a.owner == host) with
  | none => Except.error ("cannot commit with a bankroll of zero")
  | some _ =>
    let hash_pfx := hashPrefix64 commitment
    if hash_pfx = ZERO_SOURCE then
      Except.error ("A zeroed-out checksum256 is not an acceptable commitment source")
    else if (st.mts.find? (fun m => m.primary_key == hash_pfx)).isSome then
      Except.error ("commitment already exists or was generated from a bad seed")
    else if st.games.any (fun g => g.primary_key == hash_pfx) then
      Except.error ("could not insert object, most likely a uniqueness constraint was violated")
    else
      Except.ok { st with
        games := st.games ++ [⟨commitment, host⟩],
        mts := st.mts ++ [⟨commitment, host, NULL_GUESS, NULL_NAME, ZERO_ACORNS, now⟩] }

/-- dice::cancelcommit.  require_auth(host) is supplied by the environment;
the body never reads the host argument again, in particular it never compares
it with the host recorded in the match. -/
def cancelcommit (host : Nat) (commitment : List Nat) (st : State) :
    Except String State :=
  let hash_pfx := hashPrefix64 commitment
  match st.mts.find? (fun m => m.primary_key == hash_pfx) with
  | none => Except.error ("commitment not found")
  | some em =>
    if em.guess ≠ NULL_GUESS then
      Except.error ("cannot cancel commitment: already in play")
    else
      match st.games.find? (fun g => g.primary_key == hash_pfx) with
      | none => Except.error ("cannot pass end iterator to erase")
      | some _ =>
        Except.ok { st with
          mts := eraseFirst (fun m => m.primary_key == hash_pfx) st.mts,
          games := eraseFirst (fun g => g.primary_key == hash_pfx) st.games }

/-- dice::reveal, parametrised by the sha256 intrinsic: assert_sha256 aborts
unless hashFn source equals the commitment. -/
def reveal (hashFn : List Nat → List Nat) (commitment source : List Nat)
    (st : State) : Except String (State × List Payment) :=
  if hashFn source ≠ commitment then
    Except.error ("hash mismatch")
  else
    let hash_pfx := hashPrefix64 commitment
    match st.mts.find? (fun m => m.primary_key == hash_pfx) with
    | none => Except.error ("commitment not found")
    | some em =>
      if em.guess ≠ NULL_GUESS then
        let win_quantity := em.bet * 2 - ACORN_SHELL
        let result := (source.getD 31 0) % 2
        let host_payout := if result = em.guess then ACORN_SHELL else win_quantity
        let player_payout := if result = em.guess then win_quantity else ACORN_SHELL
        let player_message := if result = em.guess then "Win!" else "Lose"
        match add_balance em.host host_payout false st.accounts with
        | Except.error e => Except.error e
        | Except.ok acnts =>
          Except.ok ({ st with
              accounts := acnts,
              mts := eraseFirst (fun m => m.primary_key == hash_pfx) st.mts },
            [⟨em.player, player_payout, player_message⟩])
      else
        match st.games.find? (fun g => g.primary_key == hash_pfx) with
        | none => Except.error ("cannot pass end iterator to erase")
        | some _ =>
          Except.ok ({ st with
            games := eraseFirst (fun g => g.primary_key == hash_pfx) st.games,
            mts := eraseFirst (fun m => m.primary_key == hash_pfx) st.mts }, [])

/-- loop body of dice::collect over the suffix of the byplayer index: every
visited match whose deadline has passed is erased and its doubled bet paid to
the player named by the caller. -/
def collectLoop (player now : Nat) : List Match → List Match × List Payment
  | [] => ([], [])
  | m :: rest =>
    let (kept, pays) := collectLoop player now rest
    if m.deadline < now then
      (kept, ⟨player, m.bet * 2, "Win! (Timeout)"⟩ :: pays)
    else
      (m :: kept, pays)

/-- dice::collect.  The byplayer index find positions at the first record
whose player value equals the argument, or at end when there is none; the
while loop then runs to the end of the whole index, so it visits every match
whose player value is at least the argument.  collect performs no
authorization check at all. -/
def collect (player now : Nat) (st : State) : State × List Payment :=
  if st.mts.any (fun m => m.player == player) then
    let (kept, pays) := collectLoop player now (st.mts.filter (fun m => player ≤ m.player))
    ({ st with mts := st.mts.filter (fun m => m.player < player) ++ kept }, pays)
  else
    (st, [])

/-- eosio asset::to_string for a nonnegative ACORN amount with precision 4. -/
def pad4 (n : Nat) : String :=
  if n < 10 then "000" ++ toString n
  else if n < 100 then "00" ++ toString n
  else if n < 1000 then "0" ++ toString n
  else toString n

def asset_to_string (amount : Int) : String :=
  toString (Int.tdiv amount 10000) ++ "." ++ pad4 (Int.natAbs (Int.tmod amount 10000)) ++ " ACORN"

/-- matched branch of dice::do_bet: fund the match from the host balance,
fill in the dummy match entry, erase the game entry. -/
def do_bet_fill (player : Nat) (quantity : Int) (guess : Nat) (now : Nat)
    (owner : Nat) (egpk : Nat) (st : State) : Except String State :=
  match sub_balance owner quantity false st with
  | Except.error e => Except.error e
  | Except.ok st1 =>
    match st1.mts.find? (fun m => m.primary_key == egpk) with
    | none => Except.error ("cannot pass end iterator to modify")
    | some _ =>
      Except.ok { st1 with
        mts := (modifyFirst (fun m => m.primary_key == egpk)
          (fun m => { m with
              guess := guess,
              player := player,
              bet := quantity,
              deadline := now + GAME_TIMEOUT_SECS }) st1.mts),
        games := eraseFirst (fun g => g.primary_key == egpk) st1.games }

/-- scan loop of dice::do_bet over the accounts table, carrying the running
max_bankroll accumulator.  The state is only written on the matched branch,
which returns immediately. -/
def do_bet_scan (player : Nat) (quantity : Int) (guess : Nat) (now : Nat)
    (st : State) : List account → Int → Except String State
  | [], max_bankroll =>
    let mb := Int.tdiv max_bankroll MAX_BET_TO_BANKROLL
    if mb < MIN_TRANSFER_SHELLS then Except.error ("no bets available")
    else Except.error ("the current maximum bet is " ++ asset_to_string mb)
  | acct :: rest, max_bankroll =>
    if quantity ≤ Int.tdiv acct.balance MAX_BET_TO_BANKROLL then
      match st.games.find? (fun g => g.host == acct.owner) with
      | some eg => do_bet_fill player quantity guess now acct.owner eg.primary_key st
      | none => do_bet_scan player quantity guess now st rest max_bankroll
    else if max_bankroll < acct.balance then
      match st.games.find? (fun g => g.host == acct.owner) with
      | some _ => do_bet_scan player quantity guess now st rest acct.balance
      | none => do_bet_scan player quantity guess now st rest max_bankroll
    else do_bet_scan player quantity guess now st rest max_bankroll

/-- dice::do_bet. -/
def do_bet (player : Nat) (quantity : Int) (guess : Nat) (now : Nat)
    (st : State) : Except String State :=
  do_bet_scan player quantity guess now st st.accounts ZERO_ACORNS

/-- dice::acorn_transfer, the handler of incoming token transfers.  The self
argument is the contract account; the symbol and is_valid checks concern the
asset encoding, which the model fixes to ACORN amounts.  The literal quotes
inside the final error message of the source are elided. -/
def acorn_transfer (self sender : Nat) (quantity : Int) (memo : String)
    (now : Nat) (st : State) : Except String State :=
  if sender = self then Except.ok st
  else if quantity < MIN_TRANSFER_SHELLS then
    Except.error ("minimum quantity not met")
  else if 256 < memo.length then
    Except.error ("memo has more than 256 bytes")
  else if memo = "odd" ∨ memo = "Odd" ∨ memo = "ODD" ∨ memo = "1" then
    do_bet sender quantity 1 now st
  else if memo = "even" ∨ memo = "Even" ∨ memo = "EVEN" ∨ memo = "0" then
    do_bet sender quantity 0 now st
  else if memo = "deposit" ∨ memo = "Deposit" ∨ memo = "DEPOSIT" then
    match add_balance sender quantity true st.accounts with
    | Except.error e => Except.error e
    | Except.ok acnts => Except.ok { st with accounts := acnts }
  else Except.error ("memo must be: odd, even or deposit.")

/-- primary keys of the matches table are pairwise distinct (the multi-index
uniqueness invariant). -/
abbrev matchPkUnique (mts : List Match) : Prop :=
  List.Pairwise (fun a b => a.primary_key ≠ b.primary_key) mts

/-- primary keys of the games table are pairwise distinct. -/
abbrev gamePkUnique (gms : List game) : Prop :=
  List.Pairwise (fun a b => a.primary_key ≠ b.primary_key) gms

/-- the Offer and Bet duality of the specification: the games table and the
set of matches whose guess is unset correspond one to one through the shared
primary key. -/
abbrev offerBetDuality (st : State) : Prop :=
  (∀ g ∈ st.games, ∃ m ∈ st.mts, m.guess = NULL_GUESS ∧ m.primary_key = g.primary_key) ∧
  (∀ m ∈ st.mts, m.guess = NULL_GUESS → ∃ g ∈ st.games, g.primary_key = m.primary_key)

/-- combined table invariant used for the preservation statements: the
duality, the two primary key uniqueness constraints, and the fact that a
match has the unset guess exactly when its player is the unset name. -/
abbrev Inv (st : State) : Prop :=
  offerBetDuality st ∧ matchPkUnique st.mts ∧ gamePkUnique st.games ∧
  (∀ m ∈ st.mts, (m.guess = NULL_GUESS ↔ m.player = NULL_NAME))

/-- largest bankroll among accounts that currently hold an open game offer. -/
def maxBankrollWithOffer (st : State) : Int :=
  ((st.accounts.filter (fun a => st.games.any (fun g => g.host == a.owner))).map
    account.balance).foldl max 0

theorem eraseFirst_sublist (p : α → Bool) (l : List α) :
    List.Sublist (eraseFirst p l) l := by
  induction l with
  | nil => simp [eraseFirst]
  | cons x xs ih =>
    by_cases hx : p x
    · simpa [eraseFirst, hx] using List.sublist_cons_self x xs
    · simpa [eraseFirst, hx] using List.Sublist.cons₂ x ih

theorem mem_of_mem_eraseFirst {p : α → Bool} {l : List α} {a : α}
    (h : a ∈ eraseFirst p l) : a ∈ l :=
  (eraseFirst_sublist p l).mem h

theorem mem_eraseFirst_of_mem {p : α → Bool} {l : List α} {a : α}
    (h : a ∈ l) (hp : p a = false) : a ∈ eraseFirst p l := by
  induction l with
  | nil => simp at h
  | cons x xs ih =>
    rcases List.mem_cons.mp h with h1 | h1
    · subst h1; simp [eraseFirst, hp]
    · by_cases hx : p x
      · simpa [eraseFirst, hx] using h1
      · simpa [eraseFirst, hx] using Or.inr (ih h1)

theorem pairwise_eraseFirst {R : α → α → Prop} {p : α → Bool} {l : List α}
    (h : l.Pairwise R) : (eraseFirst p l).Pairwise R :=
  h.sublist (eraseFirst_sublist p l)

/-- membership in eraseFirst by a key equality test, when keys are pairwise
distinct: exactly the records with a different key remain. -/
theorem mem_eraseFirst_key (key : α → Nat) {l : List α}
    (hu : l.Pairwise (fun x y => key x ≠ key y)) (k : Nat) (m : α) :
    m ∈ eraseFirst (fun x => key x == k) l ↔ (m ∈ l ∧ key m ≠ k) := by
  induction l with
  | nil => simp [eraseFirst]
  | cons x xs ih =>
    rcases List.pairwise_cons.mp hu with ⟨hx, hxs⟩
    by_cases hk : key x = k
    · have hxT : (fun y => key y == k) x = true := by simpa using hk
      simp only [eraseFirst, hxT, if_pos]
      constructor
      · intro hm
        refine ⟨List.mem_cons_of_mem x hm, fun hmk => ?_⟩
        exact hx m hm (by rw [hmk, hk])
      · rintro ⟨hm, hmk⟩
        rcases List.mem_cons.mp hm with h1 | h1
        · exact absurd (h1 ▸ hk) hmk
        · exact h1
    · have hxF : (fun y => key y == k) x = false := by simpa using hk
      simp only [eraseFirst, hxF, Bool.false_eq_true, if_false]
      constructor
      · intro hm
        rcases List.mem_cons.mp hm with h1 | h1
        · exact ⟨h1 ▸ List.mem_cons_self x xs, h1 ▸ hk⟩
        · rcases (ih hxs).mp h1 with ⟨h2, h3⟩
          exact ⟨List.mem_cons_of_mem x h2, h3⟩
      · rintro ⟨hm, hmk⟩
        rcases List.mem_cons.mp hm with h1 | h1
        · exact List.mem_cons.mpr (Or.inl h1)
        · exact List.mem_cons_of_mem x ((ih hxs).mpr ⟨h1, hmk⟩)

/-- decomposition of a list along a successful find?, with the corresponding
eraseFirst and modifyFirst computations. -/
theorem find?_decomp {p : α → Bool} {l : List α} {b : α} (h : l.find? p = some b) :
    ∃ l1 l2, l = l1 ++ b :: l2 ∧ (∀ x ∈ l1, p x = false) ∧ p b = true ∧
      eraseFirst p l = l1 ++ l2 ∧ ∀ f : α → α, modifyFirst p f l = l1 ++ f b :: l2 := by
  induction l with
  | nil => simp [List.find?] at h
  | cons x xs ih =>
    by_cases hx : p x
    · rw [List.find?_cons_of_pos _ hx] at h
      injection h with h; subst h
      exact ⟨[], xs, by simp, by simp, hx, by simp [eraseFirst, hx],
        fun f => by simp [modifyFirst, hx]⟩
    · rw [List.find?_cons_of_neg _ hx] at h
      rcases ih h with ⟨l1, l2, hdec, hl1, hb, her, hmod⟩
      refine ⟨x :: l1, l2, by simp [hdec], ?_, hb, ?_, ?_⟩
      · intro y hy
        rcases List.mem_cons.mp hy with hy | hy
        · subst hy; exact Bool.eq_false_iff.mpr hx
        · exact hl1 y hy
      · simp [eraseFirst, hx, her]
      · intro f; simp [modifyFirst, hx, hmod f]

/-- after erasing the unique record with a given key, a find by that key
fails. -/
theorem find?_eraseFirst_key (key : α → Nat) {l : List α}
    (hu : l.Pairwise (fun x y => key x ≠ key y)) (k : Nat) :
    (eraseFirst (fun x => key x == k) l).find? (fun x => key x == k) = none := by
  rw [List.find?_eq_none]
  intro x hx
  have := (mem_eraseFirst_key key hu k x).mp hx
  simpa using this.2

/-- find after modifyFirst by the same test, when the rewrite preserves the
test. -/
theorem find?_modifyFirst {p : α → Bool} {l : List α} {b : α} (f : α → α)
    (h : l.find? p = some b) (hf : p (f b) = true) :
    (modifyFirst p f l).find? p = some (f b) := by
  rcases find?_decomp h with ⟨l1, l2, _, hl1, _, _, hmod⟩
  rw [hmod f, List.find?_append]
  have : l1.find? p = none := List.find?_eq_none.mpr (by
    intro x hx
    simp [hl1 x hx])
  simp [this, List.find?_cons_of_pos _ hf]

/-- two distinct members of a key-pairwise-distinct list have distinct
keys. -/
theorem key_ne_of_mem_ne (key : α → Nat) {l : List α}
    (hu : l.Pairwise (fun x y => key x ≠ key y)) {a b : α}
    (ha : a ∈ l) (hb : b ∈ l) (hab : a ≠ b) : key a ≠ key b := by
  have hsymm : Symmetric (fun x y : α => key x ≠ key y) := by
    intro x y h; exact Ne.symm h
  exact hu.forall hsymm ha hb hab

theorem any_const_pk_of_ne_nil {acnts : List account} (h : acnts ≠ []) (r : account) :
    acnts.any (fun a => a.primary_key == account.primary_key r) = true := by
  cases acnts with
  | nil => exact absurd rfl h
  | cons x xs => simp [account.primary_key]

/-- C9: the primary key of every LedgerAccount row is the constant ACORN
symbol code rather than the owner, so the accounts table can hold at most one
row: once any owner holds an account, a first deposit by a different owner
aborts on the duplicate primary key instead of creating a second account. -/
theorem C9_constant_primary_key :
    (∀ a : account, a.primary_key = ACORN_SYMBOL_CODE) ∧
    (∀ (acnts : List account) (owner : Nat) (value : Int),
      acnts ≠ [] →
      acnts.find? (fun a => a.owner == owner) = none →
      MIN_BALANCE ≤ value →
      add_balance owner value true acnts =
        Except.error ("could not insert object, most likely a uniqueness constraint was violated")) := by
  refine ⟨fun a => rfl, ?_⟩
  intro acnts owner value hne hfind hv
  simp [add_balance, hfind, not_lt.mpr hv, any_const_pk_of_ne_nil hne]

/-- witness for C9 at a concrete table: owner 1 holds the single row, owner 2
deposits the minimum balance and the insert aborts. -/
theorem C9_constant_primary_key_witness :
    add_balance 2 500000 true [⟨1, 600000⟩] =
      Except.error ("could not insert object, most likely a uniqueness constraint was violated") :=
  C9_constant_primary_key.2 [⟨1, 600000⟩] 2 500000 (by decide) (by decide) (by decide)

/-- counterexample to C5 as stated: owner 3 holds the single account row, and
a first deposit by owner 4 of 700000 shells, above MIN_BALANCE, aborts
instead of creating an account holding exactly that amount for owner 4. -/
theorem C5_counterexample :
    add_balance 4 700000 true [⟨3, 1000000⟩] =
      Except.error ("could not insert object, most likely a uniqueness constraint was violated") := by
  decide

/-- C5 amended: with enforceMinimum, a deposit by an owner without an account
rejects amounts below MIN_BALANCE and otherwise creates the account holding
exactly the amount, but only when the accounts table is empty; when another
row already exists the insert aborts on the duplicate constant primary key
(see C9).  A deposit by an owner with an account adds the amount to that
balance. -/
theorem C5_add_balance_amended :
    ∀ (owner : Nat) (value : Int) (acnts : List account),
      (acnts.find? (fun a => a.owner == owner) = none →
        (value < MIN_BALANCE →
          add_balance owner value true acnts =
            Except.error ("deposit does not meet minimum balance requirement")) ∧
        (MIN_BALANCE ≤ value → acnts = [] →
          add_balance owner value true acnts = Except.ok [⟨owner, value⟩]) ∧
        (MIN_BALANCE ≤ value → acnts ≠ [] →
          add_balance owner value true acnts =
            Except.error ("could not insert object, most likely a uniqueness constraint was violated"))) ∧
      (∀ a, acnts.find? (fun x => x.owner == owner) = some a →
        ∃ acnts2, add_balance owner value true acnts = Except.ok acnts2 ∧
          acnts2.find? (fun x => x.owner == owner) = some ⟨owner, a.balance + value⟩) := by
  intro owner value acnts
  constructor
  · intro hfind
    refine ⟨?_, ?_, ?_⟩
    · intro hv
      simp [add_balance, hfind, hv]
    · intro hv hempty
      subst hempty
      simp [add_balance, hfind, not_lt.mpr hv]
    · intro hv hne
      simp [add_balance, hfind, not_lt.mpr hv, any_const_pk_of_ne_nil hne]
  · intro a hfind
    have howner : a.owner = owner := by
      have := List.find?_some hfind
      simpa using this
    have hf : ((fun x : account => x.owner == owner)
        ({ a with balance := a.balance + value })) = true := by
      simpa using howner
    refine ⟨modifyFirst (fun x => x.owner == owner)
        (fun x => { x with balance := x.balance + value }) acnts, ?_, ?_⟩
    · simp only [add_balance, hfind]
    · have h2 := find?_modifyFirst (fun x : account => { x with balance := x.balance + value })
        hfind hf
      rw [h2]
      congr 1
      cases a
      simp only at howner
      simp [howner]

/-- witness for C5 amended at a concrete table: owner 7 already has a row, so
a deposit adds to the balance. -/
theorem C5_add_balance_amended_witness :
    ∃ acnts2, add_balance 7 100 true [⟨7, 600000⟩] = Except.ok acnts2 ∧
      acnts2.find? (fun x => x.owner == 7) = some ⟨7, (600000 : Int) + 100⟩ :=
  (C5_add_balance_amended 7 100 [⟨7, 600000⟩]).2 ⟨7, 600000⟩ (by decide)

/-- counterexample to C8 as stated: the capitalization dePOSIT of deposit is
rejected outright instead of yielding a Ledger credit. -/
theorem C8_counterexample :
    acorn_transfer 1 2 100000 "dePOSIT" 0 ⟨[], [], []⟩ =
      Except.error ("memo must be: odd, even or deposit.") := by
  decide

/-- C8 amended: the memo of an inbound transfer is matched against exact
literals, not case-insensitively: odd, Odd, ODD and 1 place a wager with
guess odd; even, Even, EVEN and 0 place a wager with guess even; deposit,
Deposit and DEPOSIT credit the Ledger; every other string, including every
other capitalization, rejects the whole transfer. -/
theorem C8_acorn_transfer_amended :
    ∀ (self sender : Nat) (q : Int) (memo : String) (now : Nat) (st : State),
      sender ≠ self → MIN_TRANSFER_SHELLS ≤ q → memo.length ≤ 256 →
      ((memo = "odd" ∨ memo = "Odd" ∨ memo = "ODD" ∨ memo = "1" →
        acorn_transfer self sender q memo now st = do_bet sender q 1 now st) ∧
       (memo = "even" ∨ memo = "Even" ∨ memo = "EVEN" ∨ memo = "0" →
        acorn_transfer self sender q memo now st = do_bet sender q 0 now st) ∧
       (memo = "deposit" ∨ memo = "Deposit" ∨ memo = "DEPOSIT" →
        (∀ acnts2, add_balance sender q true st.accounts = Except.ok acnts2 →
          acorn_transfer self sender q memo now st = Except.ok { st with accounts := acnts2 }) ∧
        (∀ e, add_balance sender q true st.accounts = Except.error e →
          acorn_transfer self sender q memo now st = Except.error e)) ∧
       (memo ∉ (["odd", "Odd", "ODD", "1", "even", "Even", "EVEN", "0",
                 "deposit", "Deposit", "DEPOSIT"] : List String) →
        acorn_transfer self sender q memo now st =
          Except.error ("memo must be: odd, even or deposit."))) := by
  intro self sender q memo now st hss hq hlen
  have h1 : ¬ (sender = self) := hss
  have h2 : ¬ (q < MIN_TRANSFER_SHELLS) := not_lt.mpr hq
  have h3 : ¬ (256 < memo.length) := not_lt.mpr hlen
  refine ⟨?_, ?_, ?_, ?_⟩
  · intro hm
    simp only [acorn_transfer, if_neg h1, if_neg h2, if_neg h3, if_pos hm]
  · intro hm
    have hodd : ¬ (memo = "odd" ∨ memo = "Odd" ∨ memo = "ODD" ∨ memo = "1") := by
      rcases hm with h | h | h | h <;> subst h <;> simp
    simp only [acorn_transfer, if_neg h1, if_neg h2, if_neg h3, if_neg hodd, if_pos hm]
  · intro hm
    have hodd : ¬ (memo = "odd" ∨ memo = "Odd" ∨ memo = "ODD" ∨ memo = "1") := by
      rcases hm with h | h | h <;> subst h <;> simp
    have heven : ¬ (memo = "even" ∨ memo = "Even" ∨ memo = "EVEN" ∨ memo = "0") := by
      rcases hm with h | h | h <;> subst h <;> simp
    constructor
    · intro acnts2 hab
      simp only [acorn_transfer, if_neg h1, if_neg h2, if_neg h3, if_neg hodd,
        if_neg heven, if_pos hm, hab]
    · intro e hab
      simp only [acorn_transfer, if_neg h1, if_neg h2, if_neg h3, if_neg hodd,
        if_neg heven, if_pos hm, hab]
  · intro hm
    simp only [List.mem_cons, List.not_mem_nil, or_false, not_or] at hm
    obtain ⟨m1, m2, m3, m4, m5, m6, m7, m8, m9, m10, m11⟩ := hm
    have hodd : ¬ (memo = "odd" ∨ memo = "Odd" ∨ memo = "ODD" ∨ memo = "1") := by
      simp [m1, m2, m3, m4]
    have heven : ¬ (memo = "even" ∨ memo = "Even" ∨ memo = "EVEN" ∨ memo = "0") := by
      simp [m5, m6, m7, m8]
    have hdep : ¬ (memo = "deposit" ∨ memo = "Deposit" ∨ memo = "DEPOSIT") := by
      simp [m9, m10, m11]
    simp only [acorn_transfer, if_neg h1, if_neg h2, if_neg h3, if_neg hodd,
      if_neg heven, if_neg hdep]

/-- witness for C8 amended: memo ODD places an odd wager. -/
theorem C8_acorn_transfer_amended_witness :
    acorn_transfer 1 2 100 "ODD" 0 ⟨[], [], []⟩ = do_bet 2 100 1 0 ⟨[], [], []⟩ :=
  (C8_acorn_transfer_amended 1 2 100 "ODD" 0 ⟨[], [], []⟩ (by decide) (by decide)
    (by decide)).1 (by simp)

/-- counterexample to C4 as stated: the placeholder Bet records host 5, yet
the call authorized as host 9 succeeds and deletes both rows. -/
theorem C4_counterexample :
    cancelcommit 9 (List.replicate 32 2)
      ⟨[], [⟨List.replicate 32 2, 5⟩], [⟨List.replicate 32 2, 5, 127, 0, 0, 10⟩]⟩ =
      Except.ok ⟨[], [], []⟩ := by
  decide

/-- C4 amended: cancelCommit requires caller authorization as its host
argument, but the body never compares that argument with the host recorded in
the Bet: the result is independent of it, it fails when no Bet with the
commitment key exists or when the Bet is already matched, and on success it
deletes both the Bet and the Offer regardless of who the recorded host is. -/
theorem C4_cancelcommit_amended :
    ∀ (h1 h2 : Nat) (c : List Nat) (st : State),
      (cancelcommit h1 c st = cancelcommit h2 c st) ∧
      (st.mts.find? (fun m => m.primary_key == hashPrefix64 c) = none →
        cancelcommit h1 c st = Except.error ("commitment not found")) ∧
      (∀ em, st.mts.find? (fun m => m.primary_key == hashPrefix64 c) = some em →
        em.guess ≠ NULL_GUESS →
        cancelcommit h1 c st = Except.error ("cannot cancel commitment: already in play")) ∧
      (∀ em, st.mts.find? (fun m => m.primary_key == hashPrefix64 c) = some em →
        em.guess = NULL_GUESS →
        (st.games.find? (fun g => g.primary_key == hashPrefix64 c)).isSome →
        cancelcommit h1 c st = Except.ok { st with
          mts := eraseFirst (fun m => m.primary_key == hashPrefix64 c) st.mts,
          games := eraseFirst (fun g => g.primary_key == hashPrefix64 c) st.games }) := by
  intro h1 h2 c st
  refine ⟨rfl, ?_, ?_, ?_⟩
  · intro hfind
    simp only [cancelcommit, hfind]
  · intro em hfind hguess
    simp only [cancelcommit, hfind, if_pos hguess]
  · intro em hfind hguess hgame
    rcases Option.isSome_iff_exists.mp hgame with ⟨g, hg⟩
    simp only [cancelcommit, hfind, hguess, ne_eq, not_true_eq_false, Bool.false_eq_true,
      if_false, hg]

/-- witness for C4 amended: the ordinary success case where the caller is the
recorded host. -/
theorem C4_cancelcommit_amended_witness :
    cancelcommit 5 (List.replicate 32 3)
      ⟨[⟨5, 600000⟩], [⟨List.replicate 32 3, 5⟩], [⟨List.replicate 32 3, 5, 127, 0, 0, 10⟩]⟩ =
      Except.ok ⟨[⟨5, 600000⟩], [], []⟩ := by
  have := (C4_cancelcommit_amended 5 5 (List.replicate 32 3)
    ⟨[⟨5, 600000⟩], [⟨List.replicate 32 3, 5⟩], [⟨List.replicate 32 3, 5, 127, 0, 0, 10⟩]⟩).2.2.2
    ⟨List.replicate 32 3, 5, 127, 0, 0, 10⟩ (by decide) (by decide) (by decide)
  rw [this]
  decide

/-- successful commit appends one game row and one placeholder match row. -/
theorem commit_ok {host : Nat} {c : List Nat} {now : Nat} {st st' : State}
    (h : commit host c now st = Except.ok st') :
    st' = { st with
      games := st.games ++ [⟨c, host⟩],
      mts := st.mts ++ [⟨c, host, NULL_GUESS, NULL_NAME, ZERO_ACORNS, now⟩] } := by
  unfold commit at h
  rcases hfind : List.find? (fun a => a.owner == host) st.accounts with _ | a <;>
    rw [hfind] at h
  · exact absurd h (by simp)
  · dsimp only [] at h
    split at h
    · exact absurd h (by simp)
    · split at h
      · exact absurd h (by simp)
      · split at h
        · exact absurd h (by simp)
        · exact (Except.ok.inj h).symm

theorem collectLoop_cons_pos (p now : Nat) (x : Match) (rest : List Match)
    (hd : x.deadline < now) :
    collectLoop p now (x :: rest) =
      ((collectLoop p now rest).1,
       ⟨p, x.bet * 2, "Win! (Timeout)"⟩ :: (collectLoop p now rest).2) := by
  simp [collectLoop, hd]

theorem collectLoop_cons_neg (p now : Nat) (x : Match) (rest : List Match)
    (hd : ¬ x.deadline < now) :
    collectLoop p now (x :: rest) =
      (x :: (collectLoop p now rest).1, (collectLoop p now rest).2) := by
  simp [collectLoop, hd]

theorem collectLoop_fst_mem (p now : Nat) (l : List Match) (m : Match) :
    m ∈ (collectLoop p now l).1 ↔ (m ∈ l ∧ ¬ m.deadline < now) := by
  induction l with
  | nil => simp [collectLoop]
  | cons x rest ih =>
    by_cases hd : x.deadline < now
    · rw [collectLoop_cons_pos p now x rest hd]
      rw [ih]
      constructor
      · rintro ⟨h1, h2⟩; exact ⟨List.mem_cons_of_mem x h1, h2⟩
      · rintro ⟨h1, h2⟩
        rcases List.mem_cons.mp h1 with h3 | h3
        · exact absurd (h3 ▸ hd) h2
        · exact ⟨h3, h2⟩
    · rw [collectLoop_cons_neg p now x rest hd]
      simp only [List.mem_cons]
      rw [ih]
      constructor
      · rintro (h1 | ⟨h1, h2⟩)
        · exact ⟨Or.inl h1, h1 ▸ hd⟩
        · exact ⟨Or.inr h1, h2⟩
      · rintro ⟨h1 | h1, h2⟩
        · exact Or.inl h1
        · exact Or.inr ⟨h1, h2⟩

theorem collectLoop_snd_mem (p now : Nat) {l : List Match} {m : Match}
    (hm : m ∈ l) (hd : m.deadline < now) :
    (⟨p, m.bet * 2, "Win! (Timeout)"⟩ : Payment) ∈ (collectLoop p now l).2 := by
  induction l with
  | nil => simp at hm
  | cons x rest ih =>
    rcases List.mem_cons.mp hm with h1 | h1
    · subst h1
      rw [collectLoop_cons_pos p now m rest hd]
      exact List.mem_cons_self _ _
    · by_cases hx : x.deadline < now
      · rw [collectLoop_cons_pos p now x rest hx]
        exact List.mem_cons_of_mem _ (ih h1)
      · rw [collectLoop_cons_neg p now x rest hx]
        exact ih h1

theorem collect_games_eq (p now : Nat) (st : State) :
    (collect p now st).1.games = st.games ∧ (collect p now st).1.accounts = st.accounts := by
  unfold collect
  split <;> simp

/-- when some match carries the swept player value, the surviving matches are
exactly those with a smaller player value or an unexpired deadline. -/
theorem collect_mts_mem (p now : Nat) (st : State) (m : Match)
    (hg : st.mts.any (fun x => x.player == p) = true) :
    m ∈ (collect p now st).1.mts ↔ (m ∈ st.mts ∧ (m.player < p ∨ ¬ m.deadline < now)) := by
  unfold collect
  rw [if_pos hg]
  simp only [List.mem_append, List.mem_filter, collectLoop_fst_mem, decide_eq_true_eq]
  constructor
  · rintro (⟨h1, h2⟩ | ⟨⟨h1, h2⟩, h3⟩)
    · exact ⟨h1, Or.inl h2⟩
    · exact ⟨h1, Or.inr h3⟩
  · rintro ⟨h1, h2 | h2⟩
    · exact Or.inl ⟨h1, h2⟩
    · by_cases hp : m.player < p
      · exact Or.inl ⟨h1, hp⟩
      · exact Or.inr ⟨⟨h1, not_lt.mp hp⟩, h2⟩

theorem collect_pays_mem (p now : Nat) (st : State) (m : Match)
    (hg : st.mts.any (fun x => x.player == p) = true)
    (hm : m ∈ st.mts) (hp : p ≤ m.player) (hd : m.deadline < now) :
    (⟨p, m.bet * 2, "Win! (Timeout)"⟩ : Payment) ∈ (collect p now st).2 := by
  unfold collect
  rw [if_pos hg]
  exact collectLoop_snd_mem p now (List.mem_filter.mpr ⟨hm, by simpa using hp⟩) hd

/-- C10: commit creates each placeholder Bet with the unset player name and a
deadline equal to its own creation time; collect, which performs no
authorization check, invoked on the unset name at any later second therefore
deletes every such placeholder, issues a zero-amount payment for each, and
leaves the games table untouched. -/
theorem C10_placeholder_sweep :
    (∀ (host : Nat) (c : List Nat) (now : Nat) (st st' : State),
      commit host c now st = Except.ok st' →
      st'.mts = st.mts ++ [⟨c, host, NULL_GUESS, NULL_NAME, ZERO_ACORNS, now⟩]) ∧
    (∀ (now : Nat) (st : State) (m : Match),
      m ∈ st.mts → m.player = NULL_NAME → m.bet = ZERO_ACORNS → m.deadline < now →
      m ∉ (collect NULL_NAME now st).1.mts ∧
      (⟨NULL_NAME, 0, "Win! (Timeout)"⟩ : Payment) ∈ (collect NULL_NAME now st).2 ∧
      (collect NULL_NAME now st).1.games = st.games) := by
  constructor
  · intro host c now st st' h
    rw [commit_ok h]
  · intro now st m hm hplayer hbet hd
    have hg : st.mts.any (fun x => x.player == NULL_NAME) = true := by
      rw [List.any_eq_true]
      exact ⟨m, hm, by simpa using hplayer⟩
    refine ⟨?_, ?_, (collect_games_eq NULL_NAME now st).1⟩
    · intro hmem
      rcases (collect_mts_mem NULL_NAME now st m hg).mp hmem with ⟨_, h2 | h2⟩
      · exact Nat.not_lt_zero m.player h2
      · exact h2 hd
    · have := collect_pays_mem NULL_NAME now st m hg hm (by simp [hplayer, NULL_NAME]) hd
      simpa [hbet, ZERO_ACORNS] using this

/-- witness for C10: a single placeholder created at second 10 is swept by
collect on the unset name at second 11, its game row surviving. -/
theorem C10_placeholder_sweep_witness :
    (⟨List.replicate 32 4, 5, 127, 0, 0, 10⟩ : Match) ∉
      (collect NULL_NAME 11
        ⟨[], [⟨List.replicate 32 4, 5⟩], [⟨List.replicate 32 4, 5, 127, 0, 0, 10⟩]⟩).1.mts ∧
    (⟨NULL_NAME, 0, "Win! (Timeout)"⟩ : Payment) ∈
      (collect NULL_NAME 11
        ⟨[], [⟨List.replicate 32 4, 5⟩], [⟨List.replicate 32 4, 5, 127, 0, 0, 10⟩]⟩).2 ∧
    (collect NULL_NAME 11
      ⟨[], [⟨List.replicate 32 4, 5⟩], [⟨List.replicate 32 4, 5, 127, 0, 0, 10⟩]⟩).1.games =
      [⟨List.replicate 32 4, 5⟩] :=
  C10_placeholder_sweep.2 11
    ⟨[], [⟨List.replicate 32 4, 5⟩], [⟨List.replicate 32 4, 5, 127, 0, 0, 10⟩]⟩
    ⟨List.replicate 32 4, 5, 127, 0, 0, 10⟩
    (by decide) (by decide) (by decide) (by decide)

/-- C1: a successful reveal of an active Bet (guess set) implies the hash
bound the source; the outcome is the lowest bit of the last byte of the
source; the player is paid 2 x wager - FEE on a win and FEE on a loss while
the host ledger is credited the complementary amount through add_balance, the
two payouts always summing to exactly 2 x wager; and the Bet row is
deleted. -/
theorem C1_reveal_settlement :
    ∀ (hashFn : List Nat → List Nat) (c s : List Nat) (st st' : State)
      (pays : List Payment) (em : Match),
      st.mts.find? (fun m => m.primary_key == hashPrefix64 c) = some em →
      em.guess ≠ NULL_GUESS →
      matchPkUnique st.mts →
      reveal hashFn c s st = Except.ok (st', pays) →
      hashFn s = c ∧
      (if (s.getD 31 0) % 2 = em.guess then ACORN_SHELL else em.bet * 2 - ACORN_SHELL) +
        (if (s.getD 31 0) % 2 = em.guess then em.bet * 2 - ACORN_SHELL else ACORN_SHELL) =
        em.bet * 2 ∧
      pays = [⟨em.player,
        if (s.getD 31 0) % 2 = em.guess then em.bet * 2 - ACORN_SHELL else ACORN_SHELL,
        if (s.getD 31 0) % 2 = em.guess then "Win!" else "Lose"⟩] ∧
      add_balance em.host
        (if (s.getD 31 0) % 2 = em.guess then ACORN_SHELL else em.bet * 2 - ACORN_SHELL)
        false st.accounts = Except.ok st'.accounts ∧
      st'.games = st.games ∧
      em ∉ st'.mts := by
  intro hashFn c s st st' pays em hfind hguess hu h
  unfold reveal at h
  by_cases hh : hashFn s ≠ c
  · rw [if_pos hh] at h
    exact absurd h (by simp)
  · rw [if_neg hh] at h
    have hc : hashFn s = c := not_ne_iff.mp hh
    dsimp only [] at h
    rw [hfind] at h
    dsimp only [] at h
    rw [if_pos hguess] at h
    rcases hab : add_balance em.host
        (if (s.getD 31 0) % 2 = em.guess then ACORN_SHELL else em.bet * 2 - ACORN_SHELL)
        false st.accounts with e | acnts <;> rw [hab] at h
    · exact absurd h (by simp)
    · dsimp only [] at h
      injection h with hinj
      injection hinj with hst hpays
      subst hst
      subst hpays
      refine ⟨hc, ?_, rfl, rfl, rfl, ?_⟩
      · by_cases hr : (s.getD 31 0) % 2 = em.guess
        · simp only [if_pos hr, ACORN_SHELL]
          try ring
        · simp only [if_neg hr, ACORN_SHELL]
          try ring
      · intro hmem
        have hkey := List.find?_some hfind
        have hchar := (mem_eraseFirst_key Match.primary_key hu (hashPrefix64 c) em).mp hmem
        exact hchar.2 (by simpa using hkey)

/-- witness for C1: host 5 committed, player 8 guessed odd with a 5000-shell
wager, the revealed source ends in byte 7, so the player wins 9999 and the
host ledger gains 1. -/
theorem C1_reveal_settlement_witness :
    add_balance 5
        (if (List.replicate 32 7).getD 31 0 % 2 = 1 then ACORN_SHELL
         else (5000 : Int) * 2 - ACORN_SHELL)
        false [⟨5, 1000⟩] =
      Except.ok (⟨[⟨5, 1001⟩], [], []⟩ : State).accounts ∧
    (⟨List.replicate 32 3, 5, 1, 8, 5000, 600⟩ : Match) ∉ (⟨[⟨5, 1001⟩], [], []⟩ : State).mts := by
  have h := C1_reveal_settlement (fun _ => List.replicate 32 3) (List.replicate 32 3)
    (List.replicate 32 7)
    ⟨[⟨5, 1000⟩], [], [⟨List.replicate 32 3, 5, 1, 8, 5000, 600⟩]⟩
    ⟨[⟨5, 1001⟩], [], []⟩ [⟨8, 9999, "Win!"⟩]
    ⟨List.replicate 32 3, 5, 1, 8, 5000, 600⟩
    (by decide) (by decide) (by decide) (by decide)
  exact ⟨h.2.2.2.1, h.2.2.2.2.2⟩

/-- a successful scan step identifies a scanned account that clears the risk
ratio and has an open game, and fills that game. -/
theorem do_bet_scan_ok {player : Nat} {q : Int} {guess now : Nat} {st : State}
    {accts : List account} {mb : Int} {st' : State}
    (h : do_bet_scan player q guess now st accts mb = Except.ok st') :
    ∃ a ∈ accts, q ≤ Int.tdiv a.balance MAX_BET_TO_BANKROLL ∧
      ∃ eg, st.games.find? (fun g => g.host == a.owner) = some eg ∧
        do_bet_fill player q guess now a.owner eg.primary_key st = Except.ok st' := by
  induction accts generalizing mb with
  | nil =>
    unfold do_bet_scan at h
    dsimp only [] at h
    split at h <;> exact absurd h (by simp)
  | cons acct rest ih =>
    unfold do_bet_scan at h
    split at h
    · rcases hg : st.games.find? (fun g => g.host == acct.owner) with _ | eg <;>
        rw [hg] at h
      · rcases ih h with ⟨a, ha, h1, eg, h2, h3⟩
        exact ⟨a, List.mem_cons_of_mem acct ha, h1, eg, h2, h3⟩
      · rename_i hq
        exact ⟨acct, List.mem_cons_self acct rest, hq, eg, hg, h⟩
    · split at h
      · rcases hg : st.games.find? (fun g => g.host == acct.owner) with _ | eg <;>
          rw [hg] at h
        · rcases ih h with ⟨a, ha, h1, eg, h2, h3⟩
          exact ⟨a, List.mem_cons_of_mem acct ha, h1, eg, h2, h3⟩
        · rcases ih h with ⟨a, ha, h1, eg2, h2, h3⟩
          exact ⟨a, List.mem_cons_of_mem acct ha, h1, eg2, h2, h3⟩
      · rcases ih h with ⟨a, ha, h1, eg, h2, h3⟩
        exact ⟨a, List.mem_cons_of_mem acct ha, h1, eg, h2, h3⟩

/-- a successful fill funds the match through sub_balance with no minimum
enforced and leaves the resulting accounts untouched afterwards. -/
theorem do_bet_fill_accounts {player : Nat} {q : Int} {guess now owner egpk : Nat}
    {st st' : State} (h : do_bet_fill player q guess now owner egpk st = Except.ok st') :
    ∃ st1, sub_balance owner q false st = Except.ok st1 ∧ st'.accounts = st1.accounts := by
  unfold do_bet_fill at h
  rcases hsb : sub_balance owner q false st with e | st1 <;> rw [hsb] at h
  · exact absurd h (by simp)
  · dsimp only [] at h
    rcases hfm : st1.mts.find? (fun m => m.primary_key == egpk) with _ | m0 <;> rw [hfm] at h
    · exact absurd h (by simp)
    · have hst := Except.ok.inj h
      exact ⟨st1, rfl, by rw [← hst]⟩

/-- a successful sub_balance finds the owner account with sufficient balance
and either deletes it (full withdrawal) or decrements it by exactly the
value. -/
theorem sub_balance_ok_spec {owner : Nat} {v : Int} {emin : Bool} {st st1 : State}
    (hu : st.accounts.Pairwise (fun x y => x.owner ≠ y.owner))
    (h : sub_balance owner v emin st = Except.ok st1) :
    ∃ a, st.accounts.find? (fun x => x.owner == owner) = some a ∧ v ≤ a.balance ∧
      (a.balance = v → st1.accounts.find? (fun x => x.owner == owner) = none) ∧
      (a.balance ≠ v → st1.accounts.find? (fun x => x.owner == owner) =
        some ⟨a.owner, a.balance - v⟩) := by
  unfold sub_balance at h
  rcases hfind : st.accounts.find? (fun x => x.owner == owner) with _ | a <;>
    rw [hfind] at h
  · exact absurd h (by simp)
  · dsimp only [] at h
    split at h
    · exact absurd h (by simp)
    · rename_i hlt
      have hv : v ≤ a.balance := not_lt.mp hlt
      split at h
      · rename_i hzero
        have hveq : a.balance = v := by omega
        split at h
        · rcases hcas : cascadeMatches (st.games.filter (fun g => owner ≤ g.host)) st.mts
            with e | mts2 <;> rw [hcas] at h
          · exact absurd h (by simp)
          · have hst := Except.ok.inj h
            refine ⟨a, hfind, hv, ?_, ?_⟩
            · intro _
              rw [← hst]
              exact find?_eraseFirst_key (fun x : account => x.owner) hu owner
            · intro hne
              exact absurd hveq hne
        · have hst := Except.ok.inj h
          refine ⟨a, hfind, hv, ?_, ?_⟩
          · intro _
            rw [← hst]
            exact find?_eraseFirst_key (fun x : account => x.owner) hu owner
          · intro hne
            exact absurd hveq hne
      · rename_i hnzero
        have hvne : a.balance ≠ v := by omega
        have hpab : ((fun x : account => x.owner == owner)
            ({ a with balance := a.balance - v })) = true := by
          simpa using List.find?_some hfind
        split at h
        · exact absurd h (by simp)
        · split at h
          · exact absurd h (by simp)
          · have hst := Except.ok.inj h
            refine ⟨a, hfind, hv, fun hq => absurd hq hvne, fun _ => ?_⟩
            rw [← hst]
            have hmod := find?_modifyFirst
              (fun x : account => { x with balance := a.balance - v }) hfind hpab
            rw [hmod]

/-- C3: do_bet succeeds only by matching a host account that clears the risk
ratio, so the matched bankroll is at least RISK_RATIO times the wager, and
exactly the wager is debited from that host through sub_balance with no
minimum enforced. -/
theorem C3_do_bet_risk :
    ∀ (player : Nat) (q : Int) (guess now : Nat) (st st' : State),
      (∀ a ∈ st.accounts, 0 ≤ a.balance) →
      st.accounts.Pairwise (fun x y => x.owner ≠ y.owner) →
      do_bet player q guess now st = Except.ok st' →
      ∃ a ∈ st.accounts,
        (∃ eg ∈ st.games, eg.host = a.owner) ∧
        q ≤ Int.tdiv a.balance MAX_BET_TO_BANKROLL ∧
        MAX_BET_TO_BANKROLL * q ≤ a.balance ∧
        ∃ st1, sub_balance a.owner q false st = Except.ok st1 ∧
          st'.accounts = st1.accounts ∧
          (a.balance = q → st1.accounts.find? (fun x => x.owner == a.owner) = none) ∧
          (a.balance ≠ q → st1.accounts.find? (fun x => x.owner == a.owner) =
            some ⟨a.owner, a.balance - q⟩) := by
  intro player q guess now st st' hpos hu h
  unfold do_bet at h
  rcases do_bet_scan_ok h with ⟨a, ha, hratio, eg, hegfind, hfill⟩
  rcases do_bet_fill_accounts hfill with ⟨st1, hsb, hacc⟩
  have hegmem : eg ∈ st.games := List.mem_of_find?_eq_some hegfind
  have heghost : eg.host = a.owner := by simpa using List.find?_some hegfind
  have hb : (0 : Int) ≤ a.balance := hpos a ha
  have hmul : MAX_BET_TO_BANKROLL * q ≤ a.balance := by
    have h100 : MAX_BET_TO_BANKROLL = (100 : Int) := rfl
    rw [h100]
    rw [h100, Int.tdiv_eq_ediv hb (by norm_num)] at hratio
    have h2 := (Int.le_ediv_iff_mul_le (by norm_num : (0 : Int) < 100)).mp hratio
    linarith
  rcases sub_balance_ok_spec hu hsb with ⟨a2, hfind2, _, hdel, hdec⟩
  have ha2mem : a2 ∈ st.accounts := List.mem_of_find?_eq_some hfind2
  have ha2own : a2.owner = a.owner := by simpa using List.find?_some hfind2
  have haa : a2 = a := by
    by_contra hne
    exact key_ne_of_mem_ne (fun x : account => x.owner) hu ha2mem ha hne ha2own
  subst haa
  exact ⟨a2, ha, ⟨eg, hegmem, heghost⟩, hratio, hmul, st1, hsb, hacc, hdel, hdec⟩

/-- witness for C3: host 5 with 600000 shells and one open game covers a
5000-shell wager from player 8; the host is debited exactly 5000. -/
theorem C3_do_bet_risk_witness :
    ∃ a ∈ [(⟨5, 600000⟩ : account)],
      (∃ eg ∈ [(⟨List.replicate 32 6, 5⟩ : game)], eg.host = a.owner) ∧
      (5000 : Int) ≤ Int.tdiv a.balance MAX_BET_TO_BANKROLL ∧
      MAX_BET_TO_BANKROLL * 5000 ≤ a.balance ∧
      ∃ st1, sub_balance a.owner 5000 false
          ⟨[⟨5, 600000⟩], [⟨List.replicate 32 6, 5⟩],
           [⟨List.replicate 32 6, 5, 127, 0, 0, 10⟩]⟩ = Except.ok st1 ∧
        (⟨[⟨5, 595000⟩], [],
          [⟨List.replicate 32 6, 5, 1, 8, 5000, 400⟩]⟩ : State).accounts = st1.accounts ∧
        (a.balance = 5000 → st1.accounts.find? (fun x => x.owner == a.owner) = none) ∧
        (a.balance ≠ 5000 → st1.accounts.find? (fun x => x.owner == a.owner) =
          some ⟨a.owner, a.balance - 5000⟩) :=
  C3_do_bet_risk 8 5000 1 100
    ⟨[⟨5, 600000⟩], [⟨List.replicate 32 6, 5⟩], [⟨List.replicate 32 6, 5, 127, 0, 0, 10⟩]⟩
    ⟨[⟨5, 595000⟩], [], [⟨List.replicate 32 6, 5, 1, 8, 5000, 400⟩]⟩
    (by decide) (by decide) (by decide)

theorem ite_lt_max (c b : Int) : (if c < b then b else c) = max c b := by
  by_cases h : c < b
  · rw [if_pos h, max_eq_right (le_of_lt h)]
  · rw [if_neg h, max_eq_left (not_lt.mp h)]

/-- when no scanned account both clears the risk ratio and has an offer, the
scan ends on the empty list carrying the running maximum it accumulated. -/
theorem do_bet_scan_no_match {player : Nat} {q : Int} {guess now : Nat} {st : State} :
    ∀ (accts : List account) (mb : Int),
      (∀ a ∈ accts, q ≤ Int.tdiv a.balance MAX_BET_TO_BANKROLL →
        st.games.find? (fun g => g.host == a.owner) = none) →
      do_bet_scan player q guess now st accts mb =
        do_bet_scan player q guess now st []
          (accts.foldl (fun acc a =>
            if st.games.any (fun g => g.host == a.owner) && decide (acc < a.balance)
            then a.balance else acc) mb) := by
  intro accts
  induction accts with
  | nil => intro mb _; rfl
  | cons acct rest ih =>
    intro mb h
    have hrest : ∀ a ∈ rest, q ≤ Int.tdiv a.balance MAX_BET_TO_BANKROLL →
        st.games.find? (fun g => g.host == a.owner) = none :=
      fun a ha => h a (List.mem_cons_of_mem acct ha)
    unfold do_bet_scan
    by_cases hq : q ≤ Int.tdiv acct.balance MAX_BET_TO_BANKROLL
    · rw [if_pos hq]
      have hnone := h acct (List.mem_cons_self acct rest) hq
      rw [hnone]
      have hany : st.games.any (fun g => g.host == acct.owner) = false := by
        rw [List.any_eq_false]
        intro g hg
        have := List.find?_eq_none.mp hnone g hg
        simpa using this
      rw [ih mb hrest]
      simp only [List.foldl_cons, hany, Bool.false_and, Bool.false_eq_true, if_false]
      rfl
    · rw [if_neg hq]
      by_cases hmb : mb < acct.balance
      · rw [if_pos hmb]
        rcases hg : st.games.find? (fun g => g.host == acct.owner) with _ | eg <;> rw [hg]
        · have hany : st.games.any (fun g => g.host == acct.owner) = false := by
            rw [List.any_eq_false]
            intro g hgm
            have := List.find?_eq_none.mp hg g hgm
            simpa using this
          rw [ih mb hrest]
          simp only [List.foldl_cons, hany, Bool.false_and, Bool.false_eq_true, if_false]
          rfl
        · have hany : st.games.any (fun g => g.host == acct.owner) = true := by
            rw [List.any_eq_true]
            exact ⟨eg, List.mem_of_find?_eq_some hg, by simpa using List.find?_some hg⟩
          rw [ih acct.balance hrest]
          simp only [List.foldl_cons, hany, Bool.true_and, hmb, decide_eq_true_eq, if_pos]
          rfl
      · rw [if_neg hmb]
        rw [ih mb hrest]
        have : (if st.games.any (fun g => g.host == acct.owner) && decide (mb < acct.balance)
            then acct.balance else mb) = mb := by
          simp [hmb]
        simp only [List.foldl_cons, this]
        rfl

/-- the guarded running maximum over the accounts equals the fold of max over
the balances of the accounts that hold an offer. -/
theorem foldl_offer_max (st : State) :
    ∀ (accts : List account) (c : Int),
      accts.foldl (fun acc a =>
        if st.games.any (fun g => g.host == a.owner) && decide (acc < a.balance)
        then a.balance else acc) c =
      ((accts.filter (fun a => st.games.any (fun g => g.host == a.owner))).map
        account.balance).foldl max c := by
  intro accts
  induction accts with
  | nil => intro c; rfl
  | cons acct rest ih =>
    intro c
    by_cases hoff : st.games.any (fun g => g.host == acct.owner) = true
    · have hstep : (if (st.games.any (fun g => g.host == acct.owner) &&
          decide (c < acct.balance)) = true then acct.balance else c) = max c acct.balance := by
        rw [hoff]
        simp only [Bool.true_and, decide_eq_true_eq]
        exact ite_lt_max c acct.balance
      rw [List.foldl_cons]
      rw [hstep]
      rw [@List.filter_cons_of_pos account
        (fun a : account => st.games.any fun g => g.host == a.owner) acct rest hoff,
        List.map_cons, List.foldl_cons]
      exact ih (max c acct.balance)
    · have hoff2 : st.games.any (fun g => g.host == acct.owner) = false :=
        Bool.eq_false_iff.mpr hoff
      have hstep : (if (st.games.any (fun g => g.host == acct.owner) &&
          decide (c < acct.balance)) = true then acct.balance else c) = c := by
        rw [hoff2]
        simp
      rw [List.foldl_cons]
      rw [hstep]
      rw [@List.filter_cons_of_neg account
        (fun a : account => st.games.any fun g => g.host == a.owner) acct rest hoff]
      exact ih c

/-- C7: when the scan finds no match, do_bet fails with the message built
from the largest bankroll among accounts that hold an open Offer, divided by
the risk ratio, or with the fixed message when that maximum bet is below the
minimum transfer. -/
theorem C7_no_match_message :
    ∀ (player : Nat) (q : Int) (guess now : Nat) (st : State),
      (∀ a ∈ st.accounts, q ≤ Int.tdiv a.balance MAX_BET_TO_BANKROLL →
        st.games.find? (fun g => g.host == a.owner) = none) →
      do_bet player q guess now st =
        Except.error
          (if Int.tdiv (maxBankrollWithOffer st) MAX_BET_TO_BANKROLL < MIN_TRANSFER_SHELLS
           then "no bets available"
           else "the current maximum bet is " ++
             asset_to_string (Int.tdiv (maxBankrollWithOffer st) MAX_BET_TO_BANKROLL)) := by
  intro player q guess now st h
  unfold do_bet
  rw [do_bet_scan_no_match st.accounts ZERO_ACORNS h]
  rw [foldl_offer_max st st.accounts ZERO_ACORNS]
  have hz : (ZERO_ACORNS : Int) = 0 := rfl
  rw [hz]
  unfold do_bet_scan
  dsimp only []
  rw [maxBankrollWithOffer]
  exact (apply_ite Except.error _ _ _).symm

/-- witness for C7: the only account has 5000 shells and an offer, the wager
51 exceeds 1 percent of it, and 5000/100 = 50 is below MIN_TRANSFER, so the
reported message is the fixed one. -/
theorem C7_no_match_message_witness :
    do_bet 8 51 1 0
      ⟨[⟨2, 5000⟩], [⟨List.replicate 32 6, 2⟩], [⟨List.replicate 32 6, 2, 127, 0, 0, 10⟩]⟩ =
      Except.error ("no bets available") := by
  have h := C7_no_match_message 8 51 1 0
    ⟨[⟨2, 5000⟩], [⟨List.replicate 32 6, 2⟩], [⟨List.replicate 32 6, 2, 127, 0, 0, 10⟩]⟩
    (by decide)
  rw [h]
  decide

/-- when every host game has a match under its key and keys are unique, the
cascade succeeds and keeps exactly the matches whose key belongs to no host
game. -/
theorem cascadeMatches_spec :
    ∀ (hg : List game) (mts : List Match),
      matchPkUnique mts →
      List.Pairwise (fun x y : game => x.primary_key ≠ y.primary_key) hg →
      (∀ g ∈ hg, ∃ m ∈ mts, m.primary_key = g.primary_key) →
      ∃ mts', cascadeMatches hg mts = Except.ok mts' ∧
        ∀ m, m ∈ mts' ↔ (m ∈ mts ∧ ∀ g ∈ hg, m.primary_key ≠ g.primary_key) := by
  intro hg
  induction hg with
  | nil =>
    intro mts _ _ _
    exact ⟨mts, rfl, by simp [cascadeMatches]⟩
  | cons g rest ih =>
    intro mts hu hgu hex
    rcases hex g (List.mem_cons_self g rest) with ⟨m0, hm0, hpk0⟩
    have hfind : (mts.find? (fun m => m.primary_key == g.primary_key)).isSome := by
      rw [List.find?_isSome]
      exact ⟨m0, hm0, by simpa using hpk0⟩
    rcases Option.isSome_iff_exists.mp hfind with ⟨mf, hmf⟩
    have hu1 : matchPkUnique (eraseFirst (fun m => m.primary_key == g.primary_key) mts) :=
      pairwise_eraseFirst hu
    rcases List.pairwise_cons.mp hgu with ⟨hghead, hgtail⟩
    have hex1 : ∀ g' ∈ rest,
        ∃ m ∈ eraseFirst (fun m => m.primary_key == g.primary_key) mts,
          m.primary_key = g'.primary_key := by
      intro g' hg'
      rcases hex g' (List.mem_cons_of_mem g hg') with ⟨m', hm', hpk'⟩
      have hne : g'.primary_key ≠ g.primary_key := Ne.symm (hghead g' hg')
      refine ⟨m', ?_, hpk'⟩
      exact (mem_eraseFirst_key Match.primary_key hu g.primary_key m').mpr
        ⟨hm', by rw [hpk']; exact hne⟩
    rcases ih (eraseFirst (fun m => m.primary_key == g.primary_key) mts) hu1 hgtail hex1
      with ⟨mts', hok, hchar⟩
    refine ⟨mts', ?_, ?_⟩
    · unfold cascadeMatches
      rw [hmf]
      exact hok
    · intro m
      rw [hchar m, mem_eraseFirst_key Match.primary_key hu g.primary_key m]
      constructor
      · rintro ⟨⟨h1, h2⟩, h3⟩
        refine ⟨h1, ?_⟩
        intro g' hg'
        rcases List.mem_cons.mp hg' with h4 | h4
        · rw [h4]; exact h2
        · exact h3 g' h4
      · rintro ⟨h1, h2⟩
        exact ⟨⟨h1, h2 g (List.mem_cons_self g rest)⟩,
          fun g' hg' => h2 g' (List.mem_cons_of_mem g hg')⟩

/-- C6: a withdraw that drives the balance to exactly zero deletes the
LedgerAccount and every Offer of that owner together with its paired
placeholder Bet, and leaves every active Bet hosted by that owner in place.
The cascade loop also erases the game and placeholder pairs of every host
with a larger name value, because it runs to the end of the byhost index;
Offers of hosts with a smaller name value survive. -/
theorem C6_withdraw_to_zero :
    ∀ (owner : Nat) (q : Int) (st : State) (a : account),
      st.accounts.find? (fun x => x.owner == owner) = some a →
      a.balance = q → 0 < q →
      st.accounts.Pairwise (fun x y => x.owner ≠ y.owner) →
      matchPkUnique st.mts → gamePkUnique st.games →
      (∀ g ∈ st.games,
        ∃ m ∈ st.mts, m.primary_key = g.primary_key ∧ m.guess = NULL_GUESS) →
      ∃ st', withdraw owner q st = Except.ok (st', [⟨owner, q, ""⟩]) ∧
        st'.accounts.find? (fun x => x.owner == owner) = none ∧
        (∀ g ∈ st.games, g.host = owner → g ∉ st'.games) ∧
        (∀ g ∈ st.games, g.host = owner →
          ∀ m ∈ st'.mts, m.primary_key ≠ g.primary_key) ∧
        (∀ g ∈ st.games, g.host < owner → g ∈ st'.games) ∧
        (∀ m ∈ st.mts, m.guess ≠ NULL_GUESS → m.host = owner → m ∈ st'.mts) := by
  intro owner q st a hfind hbal hq hau hmu hgu hdual
  by_cases hgd : st.games.any (fun g => g.host == owner) = true
  · have hgu2 : List.Pairwise (fun x y : game => x.primary_key ≠ y.primary_key)
        (st.games.filter (fun g => owner ≤ g.host)) :=
      hgu.sublist (List.filter_sublist st.games)
    have hex : ∀ g ∈ st.games.filter (fun g => owner ≤ g.host),
        ∃ m ∈ st.mts, m.primary_key = g.primary_key := by
      intro g hg
      rcases List.mem_filter.mp hg with ⟨h1, _⟩
      rcases hdual g h1 with ⟨m, hm, hpk, _⟩
      exact ⟨m, hm, hpk⟩
    rcases cascadeMatches_spec (st.games.filter (fun g => owner ≤ g.host)) st.mts
      hmu hgu2 hex with ⟨mts', hok, hchar⟩
    have hsb : sub_balance owner q true st =
        Except.ok ⟨eraseFirst (fun x => x.owner == owner) st.accounts,
          st.games.filter (fun g => g.host < owner), mts'⟩ := by
      unfold sub_balance
      rw [hfind]
      dsimp only []
      rw [if_neg (by omega : ¬ a.balance < q)]
      rw [if_pos (by omega : a.balance - q = 0)]
      rw [if_pos hgd]
      rw [hok]
    refine ⟨⟨eraseFirst (fun x => x.owner == owner) st.accounts,
      st.games.filter (fun g => g.host < owner), mts'⟩, ?_, ?_, ?_, ?_, ?_, ?_⟩
    · unfold withdraw
      rw [if_neg (by omega : ¬ q ≤ 0), hsb]
    · exact find?_eraseFirst_key (fun x : account => x.owner) hau owner
    · intro g hg hhost hmem
      rcases List.mem_filter.mp hmem with ⟨_, h2⟩
      have : g.host < owner := by simpa using h2
      omega
    · intro g hg hhost m hm
      have hgin : g ∈ st.games.filter (fun g => owner ≤ g.host) :=
        List.mem_filter.mpr ⟨hg, by simp [hhost]⟩
      exact ((hchar m).mp hm).2 g hgin
    · intro g hg hhost
      exact List.mem_filter.mpr ⟨hg, by simpa using hhost⟩
    · intro m hm hguess _
      refine (hchar m).mpr ⟨hm, ?_⟩
      intro g hgin hpkeq
      rcases List.mem_filter.mp hgin with ⟨h1, _⟩
      rcases hdual g h1 with ⟨m2, hm2, hpk2, hg2⟩
      have hmne : m ≠ m2 := by
        intro he
        rw [he] at hguess
        exact hguess hg2
      exact key_ne_of_mem_ne Match.primary_key hmu hm hm2 hmne (hpkeq.trans hpk2.symm)
  · have hsb : sub_balance owner q true st =
        Except.ok ⟨eraseFirst (fun x => x.owner == owner) st.accounts,
          st.games, st.mts⟩ := by
      unfold sub_balance
      rw [hfind]
      dsimp only []
      rw [if_neg (by omega : ¬ a.balance < q)]
      rw [if_pos (by omega : a.balance - q = 0)]
      rw [if_neg hgd]
    refine ⟨⟨eraseFirst (fun x => x.owner == owner) st.accounts,
      st.games, st.mts⟩, ?_, ?_, ?_, ?_, ?_, ?_⟩
    · unfold withdraw
      rw [if_neg (by omega : ¬ q ≤ 0), hsb]
    · exact find?_eraseFirst_key (fun x : account => x.owner) hau owner
    · intro g hg hhost _
      exact hgd (List.any_eq_true.mpr ⟨g, hg, by simpa using hhost⟩)
    · intro g hg hhost m _
      exact absurd (List.any_eq_true.mpr ⟨g, hg, by simpa using hhost⟩) hgd
    · intro g hg _
      exact hg
    · intro m hm _ _
      exact hm

/-- witness for C6, Scenario E of the specification: host 4 empties its
200-shell account while holding two open offers; both offers and their
placeholders are deleted, the active bet of player 9 hosted by 4 remains,
and the offer of the smaller-name host 3 survives. -/
theorem C6_withdraw_to_zero_witness :
    ∃ st', withdraw 4 200
        ⟨[⟨4, 200⟩],
         [⟨List.replicate 32 10, 4⟩, ⟨List.replicate 32 11, 4⟩, ⟨List.replicate 32 13, 3⟩],
         [⟨List.replicate 32 10, 4, 127, 0, 0, 10⟩,
          ⟨List.replicate 32 11, 4, 127, 0, 0, 10⟩,
          ⟨List.replicate 32 13, 3, 127, 0, 0, 10⟩,
          ⟨List.replicate 32 12, 4, 1, 9, 50, 999⟩]⟩ =
        Except.ok (st', [⟨4, 200, ""⟩]) ∧
      st'.accounts.find? (fun x => x.owner == 4) = none ∧
      (∀ g ∈ [(⟨List.replicate 32 10, 4⟩ : game), ⟨List.replicate 32 11, 4⟩,
          ⟨List.replicate 32 13, 3⟩],
        g.host = 4 → g ∉ st'.games) ∧
      (∀ g ∈ [(⟨List.replicate 32 10, 4⟩ : game), ⟨List.replicate 32 11, 4⟩,
          ⟨List.replicate 32 13, 3⟩],
        g.host = 4 → ∀ m ∈ st'.mts, m.primary_key ≠ g.primary_key) ∧
      (∀ g ∈ [(⟨List.replicate 32 10, 4⟩ : game), ⟨List.replicate 32 11, 4⟩,
          ⟨List.replicate 32 13, 3⟩],
        g.host < 4 → g ∈ st'.games) ∧
      (∀ m ∈ [(⟨List.replicate 32 10, 4, 127, 0, 0, 10⟩ : Match),
          ⟨List.replicate 32 11, 4, 127, 0, 0, 10⟩,
          ⟨List.replicate 32 13, 3, 127, 0, 0, 10⟩,
          ⟨List.replicate 32 12, 4, 1, 9, 50, 999⟩],
        m.guess ≠ NULL_GUESS → m.host = 4 → m ∈ st'.mts) :=
  C6_withdraw_to_zero 4 200
    ⟨[⟨4, 200⟩],
     [⟨List.replicate 32 10, 4⟩, ⟨List.replicate 32 11, 4⟩, ⟨List.replicate 32 13, 3⟩],
     [⟨List.replicate 32 10, 4, 127, 0, 0, 10⟩,
      ⟨List.replicate 32 11, 4, 127, 0, 0, 10⟩,
      ⟨List.replicate 32 13, 3, 127, 0, 0, 10⟩,
      ⟨List.replicate 32 12, 4, 1, 9, 50, 999⟩]⟩
    ⟨4, 200⟩ (by decide) (by decide) (by decide) (by decide) (by decide) (by decide)
    (by decide)

/-- a member of either side of a key-unique list split around a middle
element has a key different from the middle one. -/
theorem pk_ne_middle {l1 l2 : List Match} {m0 m : Match}
    (hu : matchPkUnique (l1 ++ m0 :: l2)) (hm : m ∈ l1 ∨ m ∈ l2) :
    m.primary_key ≠ m0.primary_key := by
  rcases List.pairwise_append.mp hu with ⟨_, hmid, hcross⟩
  rcases hm with hm | hm
  · exact hcross m hm m0 (List.mem_cons_self m0 l2)
  · exact Ne.symm ((List.pairwise_cons.mp hmid).1 m hm)

/-- membership characterization of a successful cascade, derived from the
success itself. -/
theorem cascadeMatches_ok_mem :
    ∀ {hg : List game} {mts mts' : List Match},
      matchPkUnique mts → cascadeMatches hg mts = Except.ok mts' →
      ∀ m, m ∈ mts' ↔ (m ∈ mts ∧ ∀ g ∈ hg, m.primary_key ≠ g.primary_key) := by
  intro hg
  induction hg with
  | nil =>
    intro mts mts' _ h m
    have := Except.ok.inj h
    subst this
    simp
  | cons g rest ih =>
    intro mts mts' hu h m
    unfold cascadeMatches at h
    rcases hmf : mts.find? (fun m => m.primary_key == g.primary_key) with _ | mf <;>
      rw [hmf] at h
    · exact absurd h (by simp)
    · have hchar := ih (pairwise_eraseFirst hu) h m
      rw [hchar, mem_eraseFirst_key Match.primary_key hu g.primary_key m]
      constructor
      · rintro ⟨⟨h1, h2⟩, h3⟩
        refine ⟨h1, ?_⟩
        intro g' hg'
        rcases List.mem_cons.mp hg' with h4 | h4
        · rw [h4]; exact h2
        · exact h3 g' h4
      · rintro ⟨h1, h2⟩
        exact ⟨⟨h1, h2 g (List.mem_cons_self g rest)⟩,
          fun g' hg' => h2 g' (List.mem_cons_of_mem g hg')⟩

/-- the two possible table outcomes of a successful sub_balance: a pure
balance update, or the full-withdrawal cascade. -/
theorem sub_balance_ok_cases {owner : Nat} {v : Int} {emin : Bool} {st st1 : State}
    (h : sub_balance owner v emin st = Except.ok st1) :
    (st1.games = st.games ∧ st1.mts = st.mts) ∨
    (∃ mts', cascadeMatches (st.games.filter (fun g => owner ≤ g.host)) st.mts =
        Except.ok mts' ∧
      st1 = ⟨eraseFirst (fun x => x.owner == owner) st.accounts,
        st.games.filter (fun g => g.host < owner), mts'⟩) := by
  unfold sub_balance at h
  rcases hf : st.accounts.find? (fun x => x.owner == owner) with _ | a <;> rw [hf] at h
  · exact absurd h (by simp)
  · dsimp only [] at h
    split at h
    · exact absurd h (by simp)
    · split at h
      · split at h
        · rcases hc : cascadeMatches (st.games.filter (fun g => owner ≤ g.host)) st.mts
            with e | mts2 <;> rw [hc] at h
          · exact absurd h (by simp)
          · right
            exact ⟨mts2, rfl, (Except.ok.inj h).symm⟩
        · left
          have hst := Except.ok.inj h
          rw [← hst]
          exact ⟨rfl, rfl⟩
      · split at h
        · exact absurd h (by simp)
        · split at h
          · exact absurd h (by simp)
          · left
            have hst := Except.ok.inj h
            rw [← hst]
            exact ⟨rfl, rfl⟩

/-- shape of a successful cancelcommit. -/
theorem cancelcommit_ok {host : Nat} {c : List Nat} {st st' : State}
    (h : cancelcommit host c st = Except.ok st') :
    ∃ em, st.mts.find? (fun m => m.primary_key == hashPrefix64 c) = some em ∧
      em.guess = NULL_GUESS ∧
      st' = { st with
        mts := eraseFirst (fun m => m.primary_key == hashPrefix64 c) st.mts,
        games := eraseFirst (fun g => g.primary_key == hashPrefix64 c) st.games } := by
  unfold cancelcommit at h
  dsimp only [] at h
  rcases hf : st.mts.find? (fun m => m.primary_key == hashPrefix64 c) with _ | em <;>
    rw [hf] at h
  · exact absurd h (by simp)
  · dsimp only [] at h
    split at h
    · exact absurd h (by simp)
    · rename_i hng
      rcases hg : st.games.find? (fun g => g.primary_key == hashPrefix64 c) with _ | g <;>
        rw [hg] at h
      · exact absurd h (by simp)
      · exact ⟨em, hf, not_ne_iff.mp hng, (Except.ok.inj h).symm⟩

/-- shape of a successful reveal: either an active settlement, which erases
only the match, or a placeholder cleanup, which erases the pair. -/
theorem reveal_ok_cases {hashFn : List Nat → List Nat} {c s : List Nat} {st st' : State}
    {pays : List Payment} (h : reveal hashFn c s st = Except.ok (st', pays)) :
    ∃ em, st.mts.find? (fun m => m.primary_key == hashPrefix64 c) = some em ∧
      ((em.guess ≠ NULL_GUESS ∧ ∃ acnts,
        st' = { st with
          accounts := acnts,
          mts := eraseFirst (fun m => m.primary_key == hashPrefix64 c) st.mts }) ∨
       (em.guess = NULL_GUESS ∧
        st' = { st with
          games := eraseFirst (fun g => g.primary_key == hashPrefix64 c) st.games,
          mts := eraseFirst (fun m => m.primary_key == hashPrefix64 c) st.mts })) := by
  unfold reveal at h
  split at h
  · exact absurd h (by simp)
  · dsimp only [] at h
    rcases hf : st.mts.find? (fun m => m.primary_key == hashPrefix64 c) with _ | em <;>
      rw [hf] at h
    · exact absurd h (by simp)
    · dsimp only [] at h
      split at h
      · rename_i hact
        rcases hab : add_balance em.host
            (if (s.getD 31 0) % 2 = em.guess then ACORN_SHELL else em.bet * 2 - ACORN_SHELL)
            false st.accounts with e | acnts <;> rw [hab] at h
        · exact absurd h (by simp)
        · dsimp only [] at h
          injection h with hinj
          injection hinj with hst hpays
          exact ⟨em, hf, Or.inl ⟨hact, acnts, hst.symm⟩⟩
      · rename_i hng
        rcases hgf : st.games.find? (fun g => g.primary_key == hashPrefix64 c) with _ | g <;>
          rw [hgf] at h
        · exact absurd h (by simp)
        · injection h with hinj
          injection hinj with hst hpays
          exact ⟨em, hf, Or.inr ⟨not_ne_iff.mp hng, hst.symm⟩⟩

/-- shape of a successful do_bet fill. -/
theorem do_bet_fill_ok_shape {player : Nat} {q : Int} {guess now owner egpk : Nat}
    {st st' : State} (h : do_bet_fill player q guess now owner egpk st = Except.ok st') :
    ∃ st1, sub_balance owner q false st = Except.ok st1 ∧
      ∃ m0, st1.mts.find? (fun m => m.primary_key == egpk) = some m0 ∧
        st' = { st1 with
          mts := (modifyFirst (fun m => m.primary_key == egpk)
            (fun m => { m with
              guess := guess,
              player := player,
              bet := q,
              deadline := now + GAME_TIMEOUT_SECS }) st1.mts),
          games := eraseFirst (fun g => g.primary_key == egpk) st1.games } := by
  unfold do_bet_fill at h
  rcases hsb : sub_balance owner q false st with e | st1 <;> rw [hsb] at h
  · exact absurd h (by simp)
  · dsimp only [] at h
    rcases hfm : st1.mts.find? (fun m => m.primary_key == egpk) with _ | m0 <;> rw [hfm] at h
    · exact absurd h (by simp)
    · exact ⟨st1, rfl, m0, hfm, (Except.ok.inj h).symm⟩

theorem commit_preserves_duality {host : Nat} {c : List Nat} {now : Nat} {st st' : State}
    (hInv : Inv st) (h : commit host c now st = Except.ok st') : offerBetDuality st' := by
  obtain ⟨⟨hd1, hd2⟩, _, _, _⟩ := hInv
  rw [commit_ok h]
  constructor
  · intro g hg
    rcases List.mem_append.mp hg with h1 | h1
    · rcases hd1 g h1 with ⟨m, hm, hg1, hg2⟩
      exact ⟨m, List.mem_append.mpr (Or.inl hm), hg1, hg2⟩
    · have hge : g = ⟨c, host⟩ := by simpa using h1
      subst hge
      exact ⟨⟨c, host, NULL_GUESS, NULL_NAME, ZERO_ACORNS, now⟩,
        List.mem_append.mpr (Or.inr (by simp)), rfl, rfl⟩
  · intro m hm hguess
    rcases List.mem_append.mp hm with h1 | h1
    · rcases hd2 m h1 hguess with ⟨g, hg, hpk⟩
      exact ⟨g, List.mem_append.mpr (Or.inl hg), hpk⟩
    · have hme : m = ⟨c, host, NULL_GUESS, NULL_NAME, ZERO_ACORNS, now⟩ := by simpa using h1
      subst hme
      exact ⟨⟨c, host⟩, List.mem_append.mpr (Or.inr (by simp)), rfl⟩

theorem cancelcommit_preserves_duality {host : Nat} {c : List Nat} {st st' : State}
    (hInv : Inv st) (h : cancelcommit host c st = Except.ok st') : offerBetDuality st' := by
  obtain ⟨⟨hd1, hd2⟩, hmu, hgu, _⟩ := hInv
  rcases cancelcommit_ok h with ⟨em, hf, hng, hst⟩
  subst hst
  constructor
  · intro g hg
    rcases (mem_eraseFirst_key game.primary_key hgu (hashPrefix64 c) g).mp hg
      with ⟨hg0, hgne⟩
    rcases hd1 g hg0 with ⟨m, hm, hmN, hmpk⟩
    refine ⟨m, ?_, hmN, hmpk⟩
    exact (mem_eraseFirst_key Match.primary_key hmu (hashPrefix64 c) m).mpr
      ⟨hm, by rw [hmpk]; exact hgne⟩
  · intro m hm hN
    rcases (mem_eraseFirst_key Match.primary_key hmu (hashPrefix64 c) m).mp hm
      with ⟨hm0, hmne⟩
    rcases hd2 m hm0 hN with ⟨g, hg, hgpk⟩
    refine ⟨g, ?_, hgpk⟩
    exact (mem_eraseFirst_key game.primary_key hgu (hashPrefix64 c) g).mpr
      ⟨hg, by rw [hgpk]; exact hmne⟩

theorem reveal_preserves_duality {hashFn : List Nat → List Nat} {c s : List Nat}
    {st st' : State} {pays : List Payment} (hInv : Inv st)
    (h : reveal hashFn c s st = Except.ok (st', pays)) : offerBetDuality st' := by
  obtain ⟨⟨hd1, hd2⟩, hmu, hgu, _⟩ := hInv
  rcases reveal_ok_cases h with ⟨em, hf, hcase⟩
  have hempk : em.primary_key = hashPrefix64 c := by simpa using List.find?_some hf
  have hemmem : em ∈ st.mts := List.mem_of_find?_eq_some hf
  rcases hcase with ⟨hact, acnts, hst⟩ | ⟨hng, hst⟩
  · subst hst
    constructor
    · intro g hg
      rcases hd1 g hg with ⟨m, hm, hmN, hmpk⟩
      refine ⟨m, ?_, hmN, hmpk⟩
      have hmne : m ≠ em := by
        intro he
        rw [he] at hmN
        exact hact hmN
      have hpkne : m.primary_key ≠ hashPrefix64 c := by
        rw [← hempk]
        exact key_ne_of_mem_ne Match.primary_key hmu hm hemmem hmne
      exact (mem_eraseFirst_key Match.primary_key hmu (hashPrefix64 c) m).mpr
        ⟨hm, hpkne⟩
    · intro m hm hN
      have hm0 : m ∈ st.mts := mem_of_mem_eraseFirst hm
      exact hd2 m hm0 hN
  · subst hst
    constructor
    · intro g hg
      rcases (mem_eraseFirst_key game.primary_key hgu (hashPrefix64 c) g).mp hg
        with ⟨hg0, hgne⟩
      rcases hd1 g hg0 with ⟨m, hm, hmN, hmpk⟩
      refine ⟨m, ?_, hmN, hmpk⟩
      exact (mem_eraseFirst_key Match.primary_key hmu (hashPrefix64 c) m).mpr
        ⟨hm, by rw [hmpk]; exact hgne⟩
    · intro m hm hN
      rcases (mem_eraseFirst_key Match.primary_key hmu (hashPrefix64 c) m).mp hm
        with ⟨hm0, hmne⟩
      rcases hd2 m hm0 hN with ⟨g, hg, hgpk⟩
      refine ⟨g, ?_, hgpk⟩
      exact (mem_eraseFirst_key game.primary_key hgu (hashPrefix64 c) g).mpr
        ⟨hg, by rw [hgpk]; exact hmne⟩

theorem do_bet_preserves_duality {player : Nat} {q : Int} {guess now : Nat}
    {st st' : State} (hInv : Inv st) (hguess : guess ≠ NULL_GUESS)
    (h : do_bet player q guess now st = Except.ok st') : offerBetDuality st' := by
  obtain ⟨⟨hd1, hd2⟩, hmu, hgu, _⟩ := hInv
  unfold do_bet at h
  rcases do_bet_scan_ok h with ⟨a, _, _, eg, hegfind, hfill⟩
  have hegmem : eg ∈ st.games := List.mem_of_find?_eq_some hegfind
  have heghost := List.find?_some hegfind
  rcases do_bet_fill_ok_shape hfill with ⟨st1, hsb, m0, hfm0, hst'⟩
  rcases sub_balance_ok_cases hsb with ⟨heqg, heqm⟩ | ⟨mts2, hcok, hst1⟩
  · rw [heqm] at hfm0
    rcases find?_decomp hfm0 with ⟨l1, l2, hdec, _, hpm0, _, hmod⟩
    have hm0pk : m0.primary_key = eg.primary_key := by simpa using hpm0
    subst hst'
    constructor
    · intro g hg
      rw [heqg] at hg
      rcases (mem_eraseFirst_key game.primary_key hgu eg.primary_key g).mp hg
        with ⟨hg0, hgne⟩
      rcases hd1 g hg0 with ⟨m, hm, hmN, hmpk⟩
      have hmne : m.primary_key ≠ m0.primary_key := by
        rw [hm0pk, hmpk]
        exact hgne
      have hml : m ∈ l1 ∨ m ∈ l2 := by
        rw [hdec] at hm
        rcases List.mem_append.mp hm with h1 | h1
        · exact Or.inl h1
        · rcases List.mem_cons.mp h1 with h2 | h2
          · exact absurd (by rw [h2]) hmne
          · exact Or.inr h2
      refine ⟨m, ?_, hmN, hmpk⟩
      rw [heqm, hmod]
      rcases hml with h1 | h1
      · exact List.mem_append.mpr (Or.inl h1)
      · exact List.mem_append.mpr (Or.inr (List.mem_cons_of_mem _ h1))
    · intro m hm hN
      rw [heqm, hmod] at hm
      have hml : m ∈ l1 ∨ m ∈ l2 := by
        rcases List.mem_append.mp hm with h1 | h1
        · exact Or.inl h1
        · rcases List.mem_cons.mp h1 with h2 | h2
          · rw [h2] at hN
            exact absurd hN hguess
          · exact Or.inr h2
      have hmmem : m ∈ st.mts := by
        rw [hdec]
        rcases hml with h1 | h1
        · exact List.mem_append.mpr (Or.inl h1)
        · exact List.mem_append.mpr (Or.inr (List.mem_cons_of_mem _ h1))
      rcases hd2 m hmmem hN with ⟨g, hg, hgpk⟩
      have hmu2 : matchPkUnique (l1 ++ m0 :: l2) := by
        rw [← hdec]
        exact hmu
      have hpkne : m.primary_key ≠ eg.primary_key := by
        rw [← hm0pk]
        exact pk_ne_middle hmu2 hml
      refine ⟨g, ?_, hgpk⟩
      rw [heqg]
      exact (mem_eraseFirst_key game.primary_key hgu eg.primary_key g).mpr
        ⟨hg, by rw [hgpk]; exact hpkne⟩
  · exfalso
    have hm0mem : m0 ∈ st1.mts := List.mem_of_find?_eq_some hfm0
    have hm0pk : m0.primary_key = eg.primary_key := by simpa using List.find?_some hfm0
    have hegown : eg.host = a.owner := by simpa using heghost
    have hegfil : eg ∈ st.games.filter (fun g => a.owner ≤ g.host) :=
      List.mem_filter.mpr ⟨hegmem, by simp [hegown]⟩
    have hchar := cascadeMatches_ok_mem hmu hcok m0
    rw [hst1] at hm0mem
    have := (hchar.mp hm0mem).2 eg hegfil
    exact this hm0pk

theorem withdraw_preserves_duality {toAcct : Nat} {q : Int} {st st' : State}
    {pays : List Payment} (hInv : Inv st)
    (h : withdraw toAcct q st = Except.ok (st', pays)) : offerBetDuality st' := by
  obtain ⟨⟨hd1, hd2⟩, hmu, hgu, _⟩ := hInv
  unfold withdraw at h
  split at h
  · exact absurd h (by simp)
  · rcases hsb : sub_balance toAcct q true st with e | st1 <;> rw [hsb] at h
    · exact absurd h (by simp)
    · injection h with hinj
      injection hinj with hst hpays
      subst hst
      rcases sub_balance_ok_cases hsb with ⟨heqg, heqm⟩ | ⟨mts2, hcok, hst1⟩
      · constructor
        · intro g hg
          rw [heqg] at hg
          rcases hd1 g hg with ⟨m, hm, hmN, hmpk⟩
          refine ⟨m, ?_, hmN, hmpk⟩
          rw [heqm]
          exact hm
        · intro m hm hN
          rw [heqm] at hm
          rcases hd2 m hm hN with ⟨g, hg, hgpk⟩
          refine ⟨g, ?_, hgpk⟩
          rw [heqg]
          exact hg
      · have hchar := cascadeMatches_ok_mem hmu hcok
        subst hst1
        constructor
        · intro g hg
          rcases List.mem_filter.mp hg with ⟨hg0, hgb⟩
          have hglt : g.host < toAcct := by simpa using hgb
          rcases hd1 g hg0 with ⟨m, hm, hmN, hmpk⟩
          refine ⟨m, ?_, hmN, hmpk⟩
          refine (hchar m).mpr ⟨hm, ?_⟩
          intro g' hg' hpkeq
          rcases List.mem_filter.mp hg' with ⟨hg'0, hg'b⟩
          have hg'ge : toAcct ≤ g'.host := by simpa using hg'b
          have hgg : g = g' := by
            by_contra hne
            exact key_ne_of_mem_ne game.primary_key hgu hg0 hg'0 hne
              (hmpk.symm.trans hpkeq)
          rw [hgg] at hglt
          omega
        · intro m hm hN
          have hmm := (hchar m).mp hm
          rcases hd2 m hmm.1 hN with ⟨g, hg, hgpk⟩
          have hglt : g.host < toAcct := by
            by_contra hge
            have hle : toAcct ≤ g.host := not_lt.mp hge
            have hgfil : g ∈ st.games.filter (fun g => toAcct ≤ g.host) :=
              List.mem_filter.mpr ⟨hg, by simpa using hle⟩
            exact hmm.2 g hgfil hgpk.symm
          refine ⟨g, ?_, hgpk⟩
          exact List.mem_filter.mpr ⟨hg, by simpa using hglt⟩

theorem collect_preserves_duality {p now : Nat} {st : State} (hInv : Inv st)
    (hp : p ≠ NULL_NAME) : offerBetDuality (collect p now st).1 := by
  obtain ⟨⟨hd1, hd2⟩, _, _, hpl⟩ := hInv
  by_cases hg : st.mts.any (fun m => m.player == p) = true
  · have hgames := (collect_games_eq p now st).1
    constructor
    · intro g hgm
      rw [hgames] at hgm
      rcases hd1 g hgm with ⟨m, hm, hmN, hmpk⟩
      refine ⟨m, ?_, hmN, hmpk⟩
      refine (collect_mts_mem p now st m hg).mpr ⟨hm, Or.inl ?_⟩
      have hply : m.player = NULL_NAME := (hpl m hm).mp hmN
      rw [hply]
      exact Nat.pos_of_ne_zero hp
    · intro m hm hN
      have hmm := ((collect_mts_mem p now st m hg).mp hm).1
      rcases hd2 m hmm hN with ⟨g, hgm, hgpk⟩
      refine ⟨g, ?_, hgpk⟩
      rw [hgames]
      exact hgm
  · have hcoll : collect p now st = (st, []) := by
      unfold collect
      rw [if_neg (by simpa using hg)]
    rw [hcoll]
    exact ⟨hd1, hd2⟩

/-- counterexample to C2 as stated: from the empty state, a deposit and a
commit reach a state where the duality holds, but collect on the unset name
one second later deletes the placeholder and leaves the Offer, breaking the
correspondence. -/
theorem C2_counterexample :
    acorn_transfer 1 2 500000 "deposit" 9 ⟨[], [], []⟩ =
      Except.ok ⟨[⟨2, 500000⟩], [], []⟩ ∧
    commit 2 (List.replicate 32 1) 10 ⟨[⟨2, 500000⟩], [], []⟩ =
      Except.ok ⟨[⟨2, 500000⟩], [⟨List.replicate 32 1, 2⟩],
        [⟨List.replicate 32 1, 2, 127, 0, 0, 10⟩]⟩ ∧
    offerBetDuality ⟨[⟨2, 500000⟩], [⟨List.replicate 32 1, 2⟩],
      [⟨List.replicate 32 1, 2, 127, 0, 0, 10⟩]⟩ ∧
    ¬ offerBetDuality (collect NULL_NAME 11 ⟨[⟨2, 500000⟩], [⟨List.replicate 32 1, 2⟩],
      [⟨List.replicate 32 1, 2, 127, 0, 0, 10⟩]⟩).1 := by
  refine ⟨by decide, by decide, by decide, by decide⟩

/-- C2 amended: the Offer/Bet duality is preserved by commit, cancelCommit,
placeWager, reveal and withdraw, and by collect for every nonempty player
identity, all from any state satisfying the table invariant; collect invoked
with the empty player identity is the one exception (see the
counterexample). -/
theorem C2_duality_amended :
    (∀ (host : Nat) (c : List Nat) (now : Nat) (st st' : State),
      Inv st → commit host c now st = Except.ok st' → offerBetDuality st') ∧
    (∀ (host : Nat) (c : List Nat) (st st' : State),
      Inv st → cancelcommit host c st = Except.ok st' → offerBetDuality st') ∧
    (∀ (player : Nat) (q : Int) (guess now : Nat) (st st' : State),
      Inv st → guess ≠ NULL_GUESS → do_bet player q guess now st = Except.ok st' →
      offerBetDuality st') ∧
    (∀ (hashFn : List Nat → List Nat) (c s : List Nat) (st st' : State)
      (pays : List Payment),
      Inv st → reveal hashFn c s st = Except.ok (st', pays) → offerBetDuality st') ∧
    (∀ (toAcct : Nat) (q : Int) (st st' : State) (pays : List Payment),
      Inv st → withdraw toAcct q st = Except.ok (st', pays) → offerBetDuality st') ∧
    (∀ (p now : Nat) (st : State),
      Inv st → p ≠ NULL_NAME → offerBetDuality (collect p now st).1) :=
  ⟨fun _ _ _ _ _ hInv h => commit_preserves_duality hInv h,
   fun _ _ _ _ hInv h => cancelcommit_preserves_duality hInv h,
   fun _ _ _ _ _ _ hInv hg h => do_bet_preserves_duality hInv hg h,
   fun _ _ _ _ _ _ hInv h => reveal_preserves_duality hInv h,
   fun _ _ _ _ _ hInv h => withdraw_preserves_duality hInv h,
   fun _ _ _ hInv hp => collect_preserves_duality hInv hp⟩

/-- witness for C2 amended: the commit conjunct applied to a concrete funded
host state. -/
theorem C2_duality_amended_witness :
    offerBetDuality ⟨[⟨2, 500000⟩], [⟨List.replicate 32 5, 2⟩],
      [⟨List.replicate 32 5, 2, 127, 0, 0, 10⟩]⟩ :=
  C2_duality_amended.1 2 (List.replicate 32 5) 10 ⟨[⟨2, 500000⟩], [], []⟩
    ⟨[⟨2, 500000⟩], [⟨List.replicate 32 5, 2⟩],
     [⟨List.replicate 32 5, 2, 127, 0, 0, 10⟩]⟩
    (by decide) (by decide)

end Betacorn
